import Mathlib

set_option maxRecDepth 100000

/-!
Verification of the tool-call detection, context-budgeting and per-turn tool
orchestration of the rkllm-cli chat session (src/tool_detector.rs,
src/chat.rs, src/mcp/client.rs, src/mcp/types.rs).

Strings are modelled as `List Char`; byte lengths are the sums of the UTF-8
sizes of the characters (`Char.utf8Size` agrees with Rust's `char::len_utf8`).
JSON values (`serde_json::Value`) are modelled by the inductive `Json`; the
object representation is the key-sorted association list that mirrors
`serde_json::Map` (a `BTreeMap` in the default configuration used here).
-/

/-- Model of `serde_json::Value`.  Numbers keep their literal text: no claim
compares numeric values, only structure, so the lexeme is enough. -/
inductive Json where
  | null : Json
  | bool (b : Bool) : Json
  | num (lit : String) : Json
  | str (s : String) : Json
  | arr (elems : List Json) : Json
  | obj (fields : List (String × Json)) : Json

/-- Byte-wise (equivalently scalar-wise) strict order on strings, as used by
the `BTreeMap` backing `serde_json::Map`. -/
def charListLt : List Char → List Char → Bool
  | [], [] => false
  | [], _ :: _ => true
  | _ :: _, [] => false
  | a :: as, b :: bs =>
    if a.toNat < b.toNat then true
    else if b.toNat < a.toNat then false
    else charListLt as bs

def strLtb (a b : String) : Bool := charListLt a.data b.data

/-- `BTreeMap::insert` on the sorted association-list representation:
keeps keys strictly ascending, replaces an existing binding. -/
def mapInsert (k : String) (v : Json) : List (String × Json) → List (String × Json)
  | [] => [(k, v)]
  | (k', v') :: rest =>
    if strLtb k k' then (k, v) :: (k', v') :: rest
    else if k = k' then (k, v) :: rest
    else (k', v') :: mapInsert k v rest

/-- `serde_json::Map::get` / `Value::get` on an object's field list. -/
def mapLookup (k : String) : List (String × Json) → Option Json
  | [] => none
  | (k', v) :: rest => if k = k' then some v else mapLookup k rest

/-- `Value::get(key)`: `Some` only on objects. -/
def Json.get (v : Json) (k : String) : Option Json :=
  match v with
  | .obj fields => mapLookup k fields
  | _ => none

/-- `Value::as_str`. -/
def Json.asStr : Json → Option String
  | .str s => some s
  | _ => none

/-- UTF-8 byte length of a character list (Rust `str::len`). -/
def utf8Len (cs : List Char) : Nat := (cs.map Char.utf8Size).sum

/-! ## Byte-budget truncation helpers (src/chat.rs 1760-1800) -/

/-- Scanning loop of `take_head_by_bytes`: keep consuming characters while the
next character still fits in `maxBytes` counted from byte offset `pos`;
stop at the first character that does not fit (the Rust loop breaks there). -/
def headScan (maxBytes : Nat) : List Char → Nat → List Char
  | [], _ => []
  | c :: rest, pos =>
    if pos + c.utf8Size ≤ maxBytes then c :: headScan maxBytes rest (pos + c.utf8Size)
    else []

/-- `take_head_by_bytes` (src/chat.rs 1760-1776). -/
def take_head_by_bytes (text : List Char) (maxBytes : Nat) : List Char :=
  if maxBytes = 0 ∨ text.isEmpty then []
  else if utf8Len text ≤ maxBytes then text
  else headScan maxBytes text 0

/-- Scanning loop of `take_tail_by_bytes`: return the suffix starting at the
first character whose byte offset is at least `target`. -/
def tailScan (target : Nat) : List Char → Nat → List Char
  | [], _ => []
  | c :: rest, pos =>
    if target ≤ pos then c :: rest
    else tailScan target rest (pos + c.utf8Size)

/-- `take_tail_by_bytes` (src/chat.rs 1778-1792). -/
def take_tail_by_bytes (text : List Char) (maxBytes : Nat) : List Char :=
  if maxBytes = 0 ∨ text.isEmpty then []
  else if utf8Len text ≤ maxBytes then text
  else tailScan (utf8Len text - maxBytes) text 0

/-- `estimate_tokens` (src/chat.rs 1794-1800): `ceil(bytes/3)` computed as
`(bytes + 2) / 3`, with the empty string mapped to zero. -/
def estimate_tokens (text : List Char) : Nat :=
  if text.isEmpty then 0 else (utf8Len text + 2) / 3

lemma headScan_prefix (maxBytes : Nat) :
    ∀ (cs : List Char) (pos : Nat), headScan maxBytes cs pos <+: cs := by
  intro cs
  induction cs with
  | nil => intro pos; simp [headScan]
  | cons c rest ih =>
    intro pos
    by_cases h : pos + c.utf8Size ≤ maxBytes
    · obtain ⟨t, ht⟩ := ih (pos + c.utf8Size)
      exact ⟨t, by simp [headScan, h, List.cons_append, ht]⟩
    · simp [headScan, h]

lemma headScan_bytes (maxBytes : Nat) :
    ∀ (cs : List Char) (pos : Nat), pos + utf8Len (headScan maxBytes cs pos) ≤ max maxBytes pos := by
  intro cs
  induction cs with
  | nil => intro pos; simp [headScan, utf8Len]
  | cons c rest ih =>
    intro pos
    by_cases h : pos + c.utf8Size ≤ maxBytes
    · have := ih (pos + c.utf8Size)
      have hmax : max maxBytes (pos + c.utf8Size) = maxBytes := by omega
      rw [hmax] at this
      simp only [headScan, h, if_true, utf8Len, List.map_cons, List.sum_cons]
      have : pos + c.utf8Size + utf8Len (headScan maxBytes rest (pos + c.utf8Size)) ≤ maxBytes := this
      simp only [utf8Len] at this ⊢
      omega
    · simp [headScan, h, utf8Len]

lemma tailScan_suffix (target : Nat) :
    ∀ (cs : List Char) (pos : Nat), tailScan target cs pos <:+ cs := by
  intro cs
  induction cs with
  | nil => intro pos; simp [tailScan]
  | cons c rest ih =>
    intro pos
    by_cases h : target ≤ pos
    · simp [tailScan, h]
    · have := ih (pos + c.utf8Size)
      exact List.IsSuffix.trans (by simpa [tailScan, h] using this) (List.suffix_cons c rest)

lemma tailScan_bytes (target : Nat) :
    ∀ (cs : List Char) (pos : Nat),
      utf8Len (tailScan target cs pos) + target ≤ max target (pos + utf8Len cs) := by
  intro cs
  induction cs with
  | nil => intro pos; simp [tailScan, utf8Len]
  | cons c rest ih =>
    intro pos
    by_cases h : target ≤ pos
    · simp only [tailScan, h, if_true]
      have : target ≤ pos + utf8Len (c :: rest) := le_trans h (Nat.le_add_right _ _)
      omega
    · have := ih (pos + c.utf8Size)
      simp only [tailScan, h, if_false, utf8Len, List.map_cons, List.sum_cons] at *
      omega

/-- Claim C7: `take_head_by_bytes` returns a prefix and `take_tail_by_bytes`
returns a suffix of the input, each of UTF-8 byte length at most the given
budget.  Both cuts happen on whole characters (the results are character
lists that are literal prefixes/suffixes of the input), so no multi-byte
UTF-8 sequence is ever split, for every input string and byte budget. -/
theorem take_by_bytes_spec (text : List Char) (maxBytes : Nat) :
    take_head_by_bytes text maxBytes <+: text ∧
    utf8Len (take_head_by_bytes text maxBytes) ≤ maxBytes ∧
    take_tail_by_bytes text maxBytes <:+ text ∧
    utf8Len (take_tail_by_bytes text maxBytes) ≤ maxBytes := by
  refine ⟨?_, ?_, ?_, ?_⟩
  · unfold take_head_by_bytes
    split
    · exact List.nil_prefix
    · split
      · exact List.prefix_refl _
      · exact headScan_prefix maxBytes text 0
  · unfold take_head_by_bytes
    split
    · simp [utf8Len]
    · split
      · assumption
      · have := headScan_bytes maxBytes text 0
        omega
  · unfold take_tail_by_bytes
    split
    · exact List.nil_suffix
    · split
      · exact List.suffix_refl _
      · exact tailScan_suffix _ text 0
  · unfold take_tail_by_bytes
    split
    · simp [utf8Len]
    · split
      · assumption
      · have := tailScan_bytes (utf8Len text - maxBytes) text 0
        rename_i h1 h2
        push_neg at h1
        omega

/-! ## JSON parsing (model of `serde_json::from_str::<Value>`)

Recursive-descent parsing over `List Char` with a fuel parameter; the fuel
`length + 1` always suffices because every nested call consumes at least one
character first. -/

/-- JSON whitespace accepted by serde between tokens: space, tab, LF, CR. -/
def jsonWs (c : Char) : Bool := c = ' ' || c = '\t' || c = '\n' || c = '\r'

def skipJsonWs (cs : List Char) : List Char := cs.dropWhile jsonWs

def isJsonDigit (c : Char) : Bool := decide (48 ≤ c.toNat ∧ c.toNat ≤ 57)

def hexVal (c : Char) : Option Nat :=
  let n := c.toNat
  if 48 ≤ n ∧ n ≤ 57 then some (n - 48)
  else if 97 ≤ n ∧ n ≤ 102 then some (n - 87)
  else if 65 ≤ n ∧ n ≤ 70 then some (n - 55)
  else none

def parseHex4 : List Char → Option (Nat × List Char)
  | a :: b :: c :: d :: rest =>
    match hexVal a, hexVal b, hexVal c, hexVal d with
    | some va, some vb, some vc, some vd => some (va * 4096 + vb * 256 + vc * 16 + vd, rest)
    | _, _, _, _ => none
  | _ => none

/-- String body after the opening quote: returns the decoded characters and the
rest after the closing quote.  Escapes follow serde: the eight simple escapes
plus `\uXXXX` with mandatory surrogate pairing; raw control characters and
lone surrogates are rejected. -/
def parseStringRest : Nat → List Char → List Char → Option (List Char × List Char)
  | 0, _, _ => none
  | _ + 1, _acc, [] => none
  | fuel + 1, acc, c :: rs =>
    if c = '"' then some (acc.reverse, rs)
    else if c = '\\' then
      match rs with
      | [] => none
      | e :: rs2 =>
        if e = '"' then parseStringRest fuel ('"' :: acc) rs2
        else if e = '\\' then parseStringRest fuel ('\\' :: acc) rs2
        else if e = '/' then parseStringRest fuel ('/' :: acc) rs2
        else if e = 'b' then parseStringRest fuel (Char.ofNat 8 :: acc) rs2
        else if e = 'f' then parseStringRest fuel (Char.ofNat 12 :: acc) rs2
        else if e = 'n' then parseStringRest fuel ('\n' :: acc) rs2
        else if e = 'r' then parseStringRest fuel ('\r' :: acc) rs2
        else if e = 't' then parseStringRest fuel ('\t' :: acc) rs2
        else if e = 'u' then
          match parseHex4 rs2 with
          | none => none
          | some (n, rs3) =>
            if 0xD800 ≤ n ∧ n ≤ 0xDBFF then
              match rs3 with
              | b1 :: b2 :: rs4 =>
                if b1 = '\\' ∧ b2 = 'u' then
                  match parseHex4 rs4 with
                  | some (lo, rs5) =>
                    if 0xDC00 ≤ lo ∧ lo ≤ 0xDFFF then
                      parseStringRest fuel
                        (Char.ofNat (0x10000 + (n - 0xD800) * 0x400 + (lo - 0xDC00)) :: acc) rs5
                    else none
                  | none => none
                else none
              | _ => none
            else if 0xDC00 ≤ n ∧ n ≤ 0xDFFF then none
            else parseStringRest fuel (Char.ofNat n :: acc) rs3
        else none
    else if c.toNat < 32 then none
    else parseStringRest fuel (c :: acc) rs

/-- Number literal: `-? int frac? exp?`; returns the lexeme and the rest. -/
def parseNumberLit (cs : List Char) : Option (List Char × List Char) :=
  let (sign, r1) :=
    match cs with
    | c :: rest => if c = '-' then ([c], rest) else (([] : List Char), cs)
    | [] => ([], cs)
  match r1 with
  | [] => none
  | c :: rest =>
    if ¬ isJsonDigit c then none
    else
      let (intPart, r2) :=
        if c = '0' then ([c], rest)
        else (c :: rest.takeWhile isJsonDigit, rest.dropWhile isJsonDigit)
      let (fracPart, r3) :=
        match r2 with
        | d :: r2' =>
          if d = '.' then
            let digits := r2'.takeWhile isJsonDigit
            if digits.isEmpty then ([], none) else (d :: digits, some (r2'.dropWhile isJsonDigit))
          else ([], some r2)
        | [] => ([], some r2)
      match r3 with
      | none => none
      | some r3' =>
        let (expPart, r4) :=
          match r3' with
          | e :: r3'' =>
            if e = 'e' ∨ e = 'E' then
              let (signE, rE) :=
                match r3'' with
                | s :: rr => if s = '+' ∨ s = '-' then ([s], rr) else (([] : List Char), r3'')
                | [] => ([], r3'')
              let digits := rE.takeWhile isJsonDigit
              if digits.isEmpty then ([], none)
              else (e :: (signE ++ digits), some (rE.dropWhile isJsonDigit))
            else ([], some r3')
          | [] => ([], some r3')
        match r4 with
        | none => none
        | some r4' => some (sign ++ intPart ++ fracPart ++ expPart, r4')

mutual

/-- One JSON value, leading whitespace allowed (serde `from_str` grammar). -/
def parseValue : Nat → List Char → Option (Json × List Char)
  | 0, _ => none
  | fuel + 1, cs =>
    let cs := skipJsonWs cs
    match cs with
    | [] => none
    | c :: rest =>
      if c = '"' then
        match parseStringRest (rest.length + 1) [] rest with
        | some (content, r) => some (Json.str ⟨content⟩, r)
        | none => none
      else if c = '{' then
        let r1 := skipJsonWs rest
        match r1 with
        | d :: r2 =>
          if d = '}' then some (Json.obj [], r2)
          else
            match parseMembers fuel [] r1 with
            | some (fields, r) => some (Json.obj fields, r)
            | none => none
        | [] => none
      else if c = '[' then
        let r1 := skipJsonWs rest
        match r1 with
        | d :: r2 =>
          if d = ']' then some (Json.arr [], r2)
          else
            match parseElems fuel [] r1 with
            | some (elems, r) => some (Json.arr elems, r)
            | none => none
        | [] => none
      else if List.isPrefixOf "null".data cs then some (Json.null, cs.drop 4)
      else if List.isPrefixOf "true".data cs then some (Json.bool true, cs.drop 4)
      else if List.isPrefixOf "false".data cs then some (Json.bool false, cs.drop 5)
      else if c = '-' ∨ isJsonDigit c then
        match parseNumberLit cs with
        | some (lexeme, r) => some (Json.num ⟨lexeme⟩, r)
        | none => none
      else none

/-- Object members after `{` (at least one); duplicate keys overwrite as in
`serde_json::Map::insert`. -/
def parseMembers : Nat → List (String × Json) → List Char → Option (List (String × Json) × List Char)
  | 0, _, _ => none
  | fuel + 1, fields, cs =>
    match skipJsonWs cs with
    | k :: r1 =>
      if k = '"' then
        match parseStringRest (r1.length + 1) [] r1 with
        | some (key, r2) =>
          match skipJsonWs r2 with
          | colon :: r3 =>
            if colon = ':' then
              match parseValue fuel r3 with
              | some (v, r4) =>
                let fields := mapInsert ⟨key⟩ v fields
                match skipJsonWs r4 with
                | sep :: r5 =>
                  if sep = ',' then parseMembers fuel fields r5
                  else if sep = '}' then some (fields, r5)
                  else none
                | [] => none
              | none => none
            else none
          | [] => none
        | none => none
      else none
    | [] => none

/-- Array elements after `[` (at least one). -/
def parseElems : Nat → List Json → List Char → Option (List Json × List Char)
  | 0, _, _ => none
  | fuel + 1, elems, cs =>
    match parseValue fuel cs with
    | some (v, r1) =>
      let elems := elems ++ [v]
      match skipJsonWs r1 with
      | sep :: r2 =>
        if sep = ',' then parseElems fuel elems r2
        else if sep = ']' then some (elems, r2)
        else none
      | [] => none
    | none => none

end

/-- Model of `serde_json::from_str::<Value>`: parse one value, allow trailing
whitespace, reject any other trailing content. -/
def jsonFromStr (cs : List Char) : Option Json :=
  match parseValue (cs.length + 1) cs with
  | some (v, rest) => if (skipJsonWs rest).isEmpty then some v else none
  | none => none

example : jsonFromStr "\x7bnot json\x7d".data = none := rfl
example : jsonFromStr "\x7b\"name\": \"b\", \"arguments\": \x7b\x7d\x7d".data =
    some (Json.obj [("arguments", Json.obj []), ("name", Json.str "b")]) := rfl
example : jsonFromStr "42".data = some (Json.num "42") := rfl
example : jsonFromStr "/home/u".data = none := rfl
example : jsonFromStr " true ".data = some (Json.bool true) := rfl

/-! ## Tool-call detection (src/tool_detector.rs)

The two regular expressions of `ToolCallDetector` are deterministic on any
input (their only unbounded pieces are a lazy `.*?` before a literal and
greedy classes before a character that the class excludes), so their
`captures_iter` semantics — leftmost, non-overlapping matches, resuming at
each match end — is modelled by direct scanning functions. -/

/-- `\s` of the regex crate: Unicode White_Space. -/
def regexWs (c : Char) : Bool :=
  let n := c.toNat
  decide ((9 ≤ n ∧ n ≤ 13) ∨ n = 32 ∨ n = 0x85 ∨ n = 0xA0 ∨ n = 0x1680 ∨
    (0x2000 ≤ n ∧ n ≤ 0x200A) ∨ n = 0x2028 ∨ n = 0x2029 ∨ n = 0x202F ∨
    n = 0x205F ∨ n = 0x3000)

/-- Consume a literal, or fail. -/
def dropLit (lit cs : List Char) : Option (List Char) :=
  if List.isPrefixOf lit cs then some (cs.drop lit.length) else none

/-- Lazy part of `\[TOOL_CALL\]\s*(\{.*?\})\s*\[END_TOOL_CALL\]`: after the
opening `{`, find the shortest middle such that a `}` follows, and after it
whitespace and the closing marker.  A `}` whose suffix does not complete the
pattern is absorbed into the middle, exactly like lazy backtracking. -/
def scanJsonClose : List Char → List Char → Option (List Char × List Char)
  | _, [] => none
  | acc, c :: rs =>
    if c = '}' then
      match dropLit "[END_TOOL_CALL]".data (rs.dropWhile regexWs) with
      | some after => some (acc.reverse, after)
      | none => scanJsonClose (c :: acc) rs
    else scanJsonClose (c :: acc) rs

/-- Try the JSON-style pattern anchored at the start of `cs`; on success
return the first capture group (`{...}`) and the rest after the match. -/
def tryJsonMatchAt (cs : List Char) : Option (List Char × List Char) :=
  match dropLit "[TOOL_CALL]".data cs with
  | none => none
  | some r1 =>
    match r1.dropWhile regexWs with
    | c :: rest =>
      if c = '{' then
        match scanJsonClose [] rest with
        | some (mid, after) => some ('{' :: (mid ++ ['}']), after)
        | none => none
      else none
    | [] => none

/-- `captures_iter` for the JSON-style pattern: scan left to right, resume
after each match.  The fuel starts at the text length and strictly dominates
the remaining length, so it never runs out. -/
def jsonCapturesAux : Nat → List Char → List (List Char)
  | 0, _ => []
  | _ + 1, [] => []
  | fuel + 1, c :: rest =>
    match tryJsonMatchAt (c :: rest) with
    | some (cap, after) => cap :: jsonCapturesAux fuel after
    | none => jsonCapturesAux fuel rest

def jsonCaptures (cs : List Char) : List (List Char) := jsonCapturesAux cs.length cs

/-- Lazy `([\s\S]*?)` before a literal: the shortest middle followed by the
literal; returns (middle, rest after the literal). -/
def scanToLit (lit : List Char) : List Char → List Char → Option (List Char × List Char)
  | _, [] => none
  | acc, c :: rs =>
    if List.isPrefixOf lit (c :: rs) then some (acc.reverse, (c :: rs).drop lit.length)
    else scanToLit lit (c :: acc) rs

/-- Try `<tool_call\s+name="([^"]+)"\s*>([\s\S]*?)</tool_call>` anchored at
the start of `cs`; on success return (name, body) and the rest. -/
def tryXmlMatchAt (cs : List Char) : Option ((String × List Char) × List Char) :=
  match dropLit "<tool_call".data cs with
  | none => none
  | some r1 =>
    match r1 with
    | c :: r2 =>
      if regexWs c then
        match dropLit "name=\"".data (r2.dropWhile regexWs) with
        | none => none
        | some r4 =>
          let nameChars := r4.takeWhile (fun ch => ¬ ch = '"')
          if nameChars.isEmpty then none
          else
            match r4.drop nameChars.length with
            | _ :: r5 =>
              match r5.dropWhile regexWs with
              | g :: r7 =>
                if g = '>' then
                  match scanToLit "</tool_call>".data [] r7 with
                  | some (body, after) => some ((⟨nameChars⟩, body), after)
                  | none => none
                else none
              | [] => none
            | [] => none
      else none
    | [] => none

def xmlCapturesAux : Nat → List Char → List ((String × List Char))
  | 0, _ => []
  | _ + 1, [] => []
  | fuel + 1, c :: rest =>
    match tryXmlMatchAt (c :: rest) with
    | some (nb, after) => nb :: xmlCapturesAux fuel after
    | none => xmlCapturesAux fuel rest

def xmlCaptures (cs : List Char) : List (String × List Char) := xmlCapturesAux cs.length cs

/-- Try `<argument\s+name="([^"]+)"\s*>([^<]*)</argument>` anchored at the
start of `cs`; returns ((name, value), rest). -/
def tryArgMatchAt (cs : List Char) : Option ((String × List Char) × List Char) :=
  match dropLit "<argument".data cs with
  | none => none
  | some r1 =>
    match r1 with
    | c :: r2 =>
      if regexWs c then
        match dropLit "name=\"".data (r2.dropWhile regexWs) with
        | none => none
        | some r4 =>
          let nameChars := r4.takeWhile (fun ch => ¬ ch = '"')
          if nameChars.isEmpty then none
          else
            match r4.drop nameChars.length with
            | _ :: r5 =>
              match r5.dropWhile regexWs with
              | g :: r7 =>
                if g = '>' then
                  let valueChars := r7.takeWhile (fun ch => ¬ ch = '<')
                  match dropLit "</argument>".data (r7.drop valueChars.length) with
                  | some after => some ((⟨nameChars⟩, valueChars), after)
                  | none => none
                else none
              | [] => none
            | [] => none
      else none
    | [] => none

def argCapturesAux : Nat → List Char → List (String × List Char)
  | 0, _ => []
  | _ + 1, [] => []
  | fuel + 1, c :: rest =>
    match tryArgMatchAt (c :: rest) with
    | some (nv, after) => nv :: argCapturesAux fuel after
    | none => argCapturesAux fuel rest

def argCaptures (cs : List Char) : List (String × List Char) := argCapturesAux cs.length cs

/-- A detected tool call (src/mcp/types.rs `ToolCall`). -/
structure ToolCall where
  name : String
  arguments : Json

/-- Per-capture body of the `detect_json_style` loop: parse the capture as
JSON, require an object with a string `name` and an `arguments` key. -/
def parseJsonCapture (cap : List Char) : Option ToolCall :=
  match jsonFromStr cap with
  | some (Json.obj fields) =>
    match mapLookup "name" fields with
    | some nv =>
      match nv.asStr with
      | some nm =>
        match mapLookup "arguments" fields with
        | some args => some ⟨nm, args⟩
        | none => none
      | none => none
    | none => none
  | _ => none

/-- Loop body of `detect_json_style`: push the capture when it parses. -/
def pushParsedJsonCapture (calls : List ToolCall) (cap : List Char) : List ToolCall :=
  match parseJsonCapture cap with
  | some call => calls ++ [call]
  | none => calls

/-- `detect_json_style` (src/tool_detector.rs 43-63): push one `ToolCall` per
capture that parses; malformed captures are skipped. -/
def detect_json_style (text : List Char) : List ToolCall :=
  (jsonCaptures text).foldl pushParsedJsonCapture []

/-- Argument map of one XML-style call body (src/tool_detector.rs 73-89):
each `<argument>` value is JSON-parsed if possible, else kept as a string;
the body itself is never parsed as JSON. -/
def xmlArgs (body : List Char) : List (String × Json) :=
  (argCaptures body).foldl
    (fun m nv =>
      let v := match jsonFromStr nv.2 with
        | some v => v
        | none => Json.str ⟨nv.2⟩
      mapInsert nv.1 v m)
    []

/-- `detect_xml_style` (src/tool_detector.rs 66-98): one `ToolCall` per
`<tool_call>` match, arguments taken only from `<argument>` pairs. -/
def detect_xml_style (text : List Char) : List ToolCall :=
  (xmlCaptures text).map (fun nb => ⟨nb.1, Json.obj (xmlArgs nb.2)⟩)

/-- `detect` (src/tool_detector.rs 30-40): all JSON-style matches first,
then all XML-style matches. -/
def detect (text : List Char) : List ToolCall :=
  detect_json_style text ++ detect_xml_style text

example :
    detect "[TOOL_CALL]\n\x7b\"name\":\"get_weather\",\"arguments\":\x7b\"location\":\"Tokyo\"\x7d\x7d\n[END_TOOL_CALL]".data =
    [⟨"get_weather", Json.obj [("location", Json.str "Tokyo")]⟩] := rfl

example :
    detect "<tool_call name=\"list_files\">\n  <argument name=\"directory\">/home/user</argument>\n  <argument name=\"pattern\">*.rs</argument>\n</tool_call>".data =
    [⟨"list_files", Json.obj [("directory", Json.str "/home/user"), ("pattern", Json.str "*.rs")]⟩] := rfl

/-! ## Sample tool-call blocks (src/chat.rs 878-946) and pretty printing -/

def hexDigitChar (n : Nat) : Char :=
  if n < 10 then Char.ofNat (48 + n) else Char.ofNat (87 + n)

/-- serde_json string escaping: quote, backslash, the short control escapes,
and `\u00xx` for the remaining control characters. -/
def escChar (c : Char) : List Char :=
  if c = '"' then ['\\', '"']
  else if c = '\\' then ['\\', '\\']
  else if c.toNat = 8 then ['\\', 'b']
  else if c.toNat = 12 then ['\\', 'f']
  else if c = '\n' then ['\\', 'n']
  else if c = '\r' then ['\\', 'r']
  else if c = '\t' then ['\\', 't']
  else if c.toNat < 32 then
    ['\\', 'u', '0', '0', hexDigitChar (c.toNat / 16), hexDigitChar (c.toNat % 16)]
  else [c]

def escapeChars (cs : List Char) : List Char := cs.foldr (fun c acc => escChar c ++ acc) []

def indentChars (lvl : Nat) : List Char := List.replicate (2 * lvl) ' '

mutual

/-- `serde_json::to_string_pretty` (two-space indentation). -/
def prettyJson : Nat → Json → List Char
  | _, .null => "null".data
  | _, .bool true => "true".data
  | _, .bool false => "false".data
  | _, .num lit => lit.data
  | _, .str s => '"' :: (escapeChars s.data ++ ['"'])
  | _, .arr [] => "[]".data
  | lvl, .arr (x :: xs) =>
    "[\n".data ++ prettyItems (lvl + 1) (x :: xs) ++ '\n' :: (indentChars lvl ++ "]".data)
  | _, .obj [] => "\x7b\x7d".data
  | lvl, .obj (f :: fs) =>
    "\x7b\n".data ++ prettyFields (lvl + 1) (f :: fs) ++ '\n' :: (indentChars lvl ++ "\x7d".data)

def prettyItems : Nat → List Json → List Char
  | _, [] => []
  | lvl, [x] => indentChars lvl ++ prettyJson lvl x
  | lvl, x :: y :: xs =>
    indentChars lvl ++ prettyJson lvl x ++ ",\n".data ++ prettyItems lvl (y :: xs)

def prettyFields : Nat → List (String × Json) → List Char
  | _, [] => []
  | lvl, [kv] =>
    indentChars lvl ++ '"' :: (escapeChars kv.1.data ++ "\": ".data ++ prettyJson lvl kv.2)
  | lvl, kv :: kv2 :: fs =>
    indentChars lvl ++ '"' :: (escapeChars kv.1.data ++ "\": ".data ++ prettyJson lvl kv.2) ++
      ",\n".data ++ prettyFields lvl (kv2 :: fs)

end

/-- `Value::as_array`. -/
def Json.asArr : Json → Option (List Json)
  | .arr xs => some xs
  | _ => none

/-- `ToolInputSchema` (src/mcp/types.rs 250-260); `properties` is a `HashMap`
modelled as an association list. -/
structure ToolInputSchema where
  schemaType : String
  properties : Option (List (String × Json))
  required : Option (List String)
  additionalProperties : Option Bool

/-- `Tool` (src/mcp/types.rs 240-246). -/
structure Tool where
  name : String
  description : Option String
  inputSchema : ToolInputSchema

/-- `sample_value_for_schema` (src/chat.rs 921-946).  The fuel only bounds the
recursion through `items`; any fuel at least the nesting depth of the schema
(e.g. `sizeOf`) reproduces the Rust function exactly. -/
def sampleValueForSchemaFuel : Nat → Json → Json
  | 0, _ => Json.str "value"
  | fuel + 1, schema =>
    match schema.get "default" with
    | some d => d
    | none =>
      match (schema.get "enum").bind Json.asArr with
      | some (first :: _) => first
      | _ =>
        match (schema.get "type").bind Json.asStr with
        | some "string" => Json.str "example"
        | some "integer" => Json.num "0"
        | some "number" => Json.num "0"
        | some "boolean" => Json.bool true
        | some "array" =>
          match schema.get "items" with
          | some items => Json.arr [sampleValueForSchemaFuel fuel items]
          | none => Json.arr []
        | some "object" => Json.obj []
        | _ => Json.str "value"

mutual

def jsonSize : Json → Nat
  | .null => 1
  | .bool _ => 1
  | .num _ => 1
  | .str _ => 1
  | .arr xs => 1 + jsonListSize xs
  | .obj fs => 1 + jsonFieldsSize fs

def jsonListSize : List Json → Nat
  | [] => 0
  | x :: xs => 1 + jsonSize x + jsonListSize xs

def jsonFieldsSize : List (String × Json) → Nat
  | [] => 0
  | kv :: fs => 1 + jsonSize kv.2 + jsonFieldsSize fs

end

def sample_value_for_schema (schema : Json) : Json :=
  sampleValueForSchemaFuel (jsonSize schema) schema

/-- Stable insertion sort: the unique stable sort, hence the same output as
Rust’s stable `sort`/`sort_by_key` for a total comparator `le`. -/
def insertSorted (le : α → α → Bool) (x : α) : List α → List α
  | [] => [x]
  | y :: ys => if le x y then x :: y :: ys else y :: insertSorted le x ys

def sortBy (le : α → α → Bool) (l : List α) : List α :=
  l.foldr (insertSorted le) []

/-- `build_sample_arguments` (src/chat.rs 885-919): keep the required keys
(or all keys when no required list), sorted; sample a value per key; fall
back to `{"example": "value"}` when nothing was added. -/
def build_sample_arguments (tool : Tool) : Json :=
  let required := tool.inputSchema.required.getD []
  match tool.inputSchema.properties with
  | some props =>
    let keys :=
      if required.isEmpty then props.map Prod.fst
      else (props.map Prod.fst).filter (fun k => required.contains k)
    let keys := sortBy (fun a b => ! strLtb b a) keys
    let fields := keys.foldl
      (fun m k =>
        match mapLookup k props with
        | some schema => mapInsert k (sample_value_for_schema schema) m
        | none => m)
      []
    if fields.isEmpty then Json.obj [("example", Json.str "value")] else Json.obj fields
  | none => Json.obj [("example", Json.str "value")]

/-- `build_tool_sample_block` (src/chat.rs 878-883). -/
def build_tool_sample_block (tool : Tool) : List Char :=
  "<tool_call name=\"".data ++ tool.name.data ++ "\">\n".data ++
    prettyJson 0 (build_sample_arguments tool) ++ "\n</tool_call>\n".data

/-- A representative MCP tool with one required string argument. -/
def sampleGetWeatherTool : Tool :=
  { name := "get_weather"
    description := some "Get the current weather"
    inputSchema :=
      { schemaType := "object"
        properties := some [("location", Json.obj [("type", Json.str "string")])]
        required := some ["location"]
        additionalProperties := none } }

example : build_tool_sample_block sampleGetWeatherTool =
    "<tool_call name=\"get_weather\">\n\x7b\n  \"location\": \"example\"\n\x7d\n</tool_call>\n".data := rfl

/-! ## Detector claims -/

/-- Claim C1 (refuted; code bug evidence).  The sample block generated by
`build_tool_sample_block` for a tool with required argument `location` has a
body that is a single valid JSON object containing that key, yet `detect`
returns the tool name with an *empty* arguments object: `detect_xml_style`
never parses the body as JSON, it only scans for `<argument>` pairs — even
though the prompt built by `build_tool_info` (src/chat.rs 970-975) instructs
the model to put exactly such a JSON body inside the `<tool_call>` tags.  So
the round trip loses every argument, including the required ones. -/
theorem detect_drops_sample_block_arguments :
    build_tool_sample_block sampleGetWeatherTool =
      "<tool_call name=\"get_weather\">\n\x7b\n  \"location\": \"example\"\n\x7d\n</tool_call>\n".data ∧
    jsonFromStr (prettyJson 0 (build_sample_arguments sampleGetWeatherTool)) =
      some (Json.obj [("location", Json.str "example")]) ∧
    detect (build_tool_sample_block sampleGetWeatherTool) =
      [⟨"get_weather", Json.obj []⟩] ∧
    Json.get (Json.obj []) "location" = none :=
  ⟨rfl, rfl, rfl, rfl⟩

def xmlBlockA : List Char := "<tool_call name=\"a\"></tool_call>".data

def jsonBlockB : List Char :=
  "[TOOL_CALL]\x7b\"name\":\"b\",\"arguments\":\x7b\x7d\x7d[END_TOOL_CALL]".data

def jsonBlockC : List Char :=
  "[TOOL_CALL]\x7b\"name\":\"c\",\"arguments\":\x7b\x7d\x7d[END_TOOL_CALL]".data

/-- Claim C2 (counterexample).  In a text where a well-formed XML-style call
(`a`) textually precedes a well-formed JSON-style call (`b`), `detect`
returns the JSON-style call first: the two syntaxes are scanned separately
and concatenated, never interleaved by textual position. -/
theorem detect_not_interleaved_by_position :
    detect (xmlBlockA ++ jsonBlockB) = [⟨"b", Json.obj []⟩, ⟨"a", Json.obj []⟩] ∧
    (detect (xmlBlockA ++ jsonBlockB)).map ToolCall.name ≠ ["a", "b"] :=
  ⟨rfl, by decide⟩

/-- Claim C2 (amended).  `detect` returns exactly one `ToolCall` per
well-formed occurrence: all bracketed-JSON matches first, in textual order,
followed by all tagged-XML matches, in textual order; matches of the two
syntaxes are not interleaved by position.  The general equation states the
grouping; the concrete cases exhibit the within-syntax textual order and the
cross-syntax grouping. -/
theorem detect_order_by_syntax_then_position :
    (∀ text : List Char, detect text = detect_json_style text ++ detect_xml_style text) ∧
    detect (jsonBlockB ++ jsonBlockC) = [⟨"b", Json.obj []⟩, ⟨"c", Json.obj []⟩] ∧
    detect (jsonBlockC ++ jsonBlockB) = [⟨"c", Json.obj []⟩, ⟨"b", Json.obj []⟩] ∧
    detect (xmlBlockA ++ jsonBlockB) = [⟨"b", Json.obj []⟩, ⟨"a", Json.obj []⟩] :=
  ⟨fun _ => rfl, rfl, rfl, rfl⟩

lemma foldl_push_eq_filterMap :
    ∀ (l : List (List Char)) (acc : List ToolCall),
      l.foldl pushParsedJsonCapture acc = acc ++ l.filterMap parseJsonCapture := by
  intro l
  induction l with
  | nil => intro acc; simp
  | cons x xs ih =>
    intro acc
    simp only [List.foldl_cons, List.filterMap_cons]
    cases h : parseJsonCapture x with
    | none => simp [pushParsedJsonCapture, h, ih acc]
    | some c => simp [pushParsedJsonCapture, h, ih (acc ++ [c])]

/-- Claim C8.  `detect` is a total function (it returns a list, never an
error); each JSON-style capture is parsed independently and simply skipped
when malformed, so one bad occurrence cannot abort the rest; in particular
the single malformed block yields `[]`, and a malformed block followed by a
well-formed one yields exactly the well-formed call. -/
theorem detect_skips_malformed_occurrences :
    (∀ text : List Char,
      detect_json_style text = (jsonCaptures text).filterMap parseJsonCapture) ∧
    detect "[TOOL_CALL]\x7bnot json\x7d[END_TOOL_CALL]".data = [] ∧
    detect ("[TOOL_CALL]\x7bnot json\x7d[END_TOOL_CALL] ".data ++ jsonBlockB) =
      [⟨"b", Json.obj []⟩] := by
  refine ⟨fun text => ?_, rfl, rfl⟩
  have h := foldl_push_eq_filterMap (jsonCaptures text) []
  rw [List.nil_append] at h
  exact h

/-! ## Context budgeting (src/chat.rs 1646-1758) -/

/-- `file_ops::FileContent` as used by the budgeting code. -/
structure FileContent where
  originalPath : String
  content : List Char

structure TruncationNotice where
  path : String
  originalTokens : Nat
  keptTokens : Nat

/-- Remainder loop of `truncate_files_to_budget` (src/chat.rs 1688-1694):
walk the sorted index order, adding one token per index until the remainder
is exhausted. -/
def distributeRemainder : List Nat → Nat → List Nat → List Nat
  | allocs, 0, _ => allocs
  | allocs, _ + 1, [] => allocs
  | allocs, rem + 1, idx :: rest =>
    distributeRemainder (allocs.set idx (allocs.getD idx 0 + 1)) rem rest

/-- Allocation phase of `truncate_files_to_budget` (src/chat.rs 1677-1694):
floor-proportional shares, then the leftover distributed one token at a time
to the indices sorted by descending original token count (stably, as Rust's
`sort_by_key` with a `Reverse` key). -/
def budgetAllocations (origTokens : List Nat) (budgetTokens : Nat) : List Nat :=
  let total := origTokens.sum
  let base :=
    if 0 < total then origTokens.map (fun t => budgetTokens * t / total)
    else List.replicate origTokens.length 0
  let remainder := budgetTokens - base.sum
  let order := sortBy (fun i j => decide (origTokens.getD j 0 ≤ origTokens.getD i 0))
    (List.range origTokens.length)
  distributeRemainder base remainder order

/-- `truncate_file_content` (src/chat.rs 1728-1758). -/
def truncate_file_content (content : List Char) (limitTokens : Nat) :
    List Char × Nat × Bool :=
  if content.isEmpty ∨ limitTokens = 0 then ([], 0, !content.isEmpty)
  else
    let maxBytes := max (limitTokens * 3) 1
    if utf8Len content ≤ maxBytes then (content, estimate_tokens content, false)
    else
      let marker := "\n[...truncated...]\n".data
      let keepBytes := maxBytes - utf8Len marker
      if keepBytes = 0 then
        let head := take_head_by_bytes content maxBytes
        (head, estimate_tokens head, true)
      else
        let headBytes := keepBytes * 2 / 3
        let tailBytes := keepBytes - headBytes
        let head := take_head_by_bytes content headBytes
        let tail := if 0 < tailBytes then take_tail_by_bytes content tailBytes else []
        let truncated := head ++ marker ++ tail
        (truncated, estimate_tokens truncated, true)

/-- Final per-file loop of `truncate_files_to_budget` (src/chat.rs 1696-1723)
over (file, original tokens, allocation) triples. -/
def applyAllocations : List (FileContent × Nat × Nat) → List FileContent × List TruncationNotice
  | [] => ([], [])
  | (f, origT, limitT) :: rest =>
    let (tf, tn) := applyAllocations rest
    if limitT = 0 then (tf, ⟨f.originalPath, origT, 0⟩ :: tn)
    else
      let (content, keptT, truncated) := truncate_file_content f.content limitT
      if truncated then
        (⟨f.originalPath, content⟩ :: tf, ⟨f.originalPath, origT, keptT⟩ :: tn)
      else (⟨f.originalPath, content⟩ :: tf, tn)

/-- `truncate_files_to_budget` (src/chat.rs 1646-1726). -/
def truncate_files_to_budget (files : List FileContent) (budgetTokens : Nat) :
    List FileContent × List TruncationNotice :=
  if files.isEmpty then ([], [])
  else
    let originalTokens := files.map (fun f => estimate_tokens f.content)
    let totalTokens := originalTokens.sum
    if budgetTokens = 0 then
      ([], (files.zip originalTokens).map (fun ft => ⟨ft.1.originalPath, ft.2, 0⟩))
    else if totalTokens ≤ budgetTokens then (files, [])
    else
      let allocations := budgetAllocations originalTokens budgetTokens
      applyAllocations (files.zip (originalTokens.zip allocations))

lemma sum_set_getD_succ :
    ∀ (l : List Nat) (i : Nat), i < l.length →
      (l.set i (l.getD i 0 + 1)).sum = l.sum + 1 := by
  intro l
  induction l with
  | nil => intro i h; simp at h
  | cons x xs ih =>
    intro i h
    cases i with
    | zero => simp [List.set, List.getD]; omega
    | succ j =>
      have hj : j < xs.length := by simpa using h
      simp only [List.set, List.getD_cons_succ, List.sum_cons, ih j hj]
      omega

lemma distributeRemainder_sum :
    ∀ (order : List Nat) (allocs : List Nat) (rem : Nat),
      (∀ i ∈ order, i < allocs.length) → rem ≤ order.length →
      (distributeRemainder allocs rem order).sum = allocs.sum + rem := by
  intro order
  induction order with
  | nil =>
    intro allocs rem _ hrem
    have h0 : rem = 0 := Nat.le_zero.mp (by simpa using hrem)
    subst h0
    simp [distributeRemainder]
  | cons idx rest ih =>
    intro allocs rem hmem hrem
    cases rem with
    | zero => simp [distributeRemainder]
    | succ r =>
      have hidx : idx < allocs.length := hmem idx (by simp)
      have hlen : (allocs.set idx (allocs.getD idx 0 + 1)).length = allocs.length :=
        List.length_set allocs idx _
      have hmem' : ∀ i ∈ rest, i < (allocs.set idx (allocs.getD idx 0 + 1)).length := by
        intro i hi; rw [hlen]; exact hmem i (by simp [hi])
      have hrem' : r ≤ rest.length := by simpa using hrem
      simp only [distributeRemainder, ih _ r hmem' hrem', sum_set_getD_succ allocs idx hidx]
      omega

lemma insertSorted_perm (le : α → α → Bool) (x : α) :
    ∀ (l : List α), (insertSorted le x l).Perm (x :: l) := by
  intro l
  induction l with
  | nil => simp [insertSorted]
  | cons y ys ih =>
    by_cases h : le x y
    · simp [insertSorted, h]
    · simp only [insertSorted, h, if_false]
      exact (ih.cons y).trans (List.Perm.swap x y ys)

lemma sortBy_perm (le : α → α → Bool) :
    ∀ (l : List α), (sortBy le l).Perm l := by
  intro l
  induction l with
  | nil => simp [sortBy]
  | cons x xs ih =>
    have : sortBy le (x :: xs) = insertSorted le x (sortBy le xs) := rfl
    rw [this]
    exact (insertSorted_perm le x (sortBy le xs)).trans (ih.cons x)

lemma map_div_sum_mul_le (b T : Nat) :
    ∀ (l : List Nat), (l.map (fun t => b * t / T)).sum * T ≤ b * l.sum := by
  intro l
  induction l with
  | nil => simp
  | cons t ts ih =>
    simp only [List.map_cons, List.sum_cons, Nat.add_mul, Nat.mul_add]
    exact Nat.add_le_add (Nat.div_mul_le_self (b * t) T) ih

lemma mul_sum_lt_map_div_sum (b T : Nat) (hT : 0 < T) :
    ∀ (l : List Nat), b * l.sum < (l.map (fun t => b * t / T)).sum * T + T + l.length * T := by
  intro l
  induction l with
  | nil => simpa using hT
  | cons t ts ih =>
    have hmod : (b * t) % T < T := Nat.mod_lt _ hT
    have hdm : T * (b * t / T) + (b * t) % T = b * t := Nat.div_add_mod (b * t) T
    have hcomm : T * (b * t / T) = (b * t / T) * T := Nat.mul_comm _ _
    simp only [List.map_cons, List.sum_cons, List.length_cons, Nat.mul_add, Nat.add_mul] at *
    omega

/-- Claim C6: when the attached files' total estimated tokens exceed a
positive budget, the allocations computed by `truncate_files_to_budget` —
floor-proportional shares plus the leftover handed out one token at a time
along the descending-size index order — sum to exactly the budget: no
rounding loss or gain. -/
theorem budget_allocation_exact (files : List FileContent) (budgetTokens : Nat)
    (_hpos : 0 < budgetTokens)
    (hover : budgetTokens < (files.map (fun f => estimate_tokens f.content)).sum) :
    (budgetAllocations (files.map (fun f => estimate_tokens f.content)) budgetTokens).sum =
      budgetTokens := by
  set toks := files.map (fun f => estimate_tokens f.content) with htoks
  set T := toks.sum with hT
  have hTpos : 0 < T := lt_of_le_of_lt (Nat.zero_le _) hover
  unfold budgetAllocations
  rw [← hT]
  simp only [hTpos, if_pos]
  set base := toks.map (fun t => budgetTokens * t / T) with hbase
  have hF_le : base.sum ≤ budgetTokens := by
    have h1 := map_div_sum_mul_le budgetTokens T toks
    rw [← hT, ← hbase] at h1
    exact Nat.le_of_mul_le_mul_right h1 hTpos
  have hF_lt : budgetTokens < base.sum + 1 + toks.length := by
    have h2 := mul_sum_lt_map_div_sum budgetTokens T hTpos toks
    rw [← hT, ← hbase] at h2
    have h3 : budgetTokens * T < (base.sum + 1 + toks.length) * T := by
      calc budgetTokens * T < base.sum * T + T + toks.length * T := h2
        _ = (base.sum + 1 + toks.length) * T := by ring
    exact Nat.lt_of_mul_lt_mul_right h3
  set order := sortBy (fun i j => decide (toks.getD j 0 ≤ toks.getD i 0))
    (List.range toks.length) with horder
  have hperm := sortBy_perm (fun i j => decide (toks.getD j 0 ≤ toks.getD i 0))
    (List.range toks.length)
  have horderlen : order.length = toks.length := by
    rw [horder, hperm.length_eq, List.length_range]
  have hbaselen : base.length = toks.length := by simp [hbase]
  have hmem : ∀ i ∈ order, i < base.length := by
    intro i hi
    rw [hbaselen]
    have := hperm.mem_iff.mp hi
    simpa using this
  have hrem : budgetTokens - base.sum ≤ order.length := by omega
  rw [distributeRemainder_sum order base (budgetTokens - base.sum) hmem hrem]
  omega

/-- Witness for C6 at a concrete input: two files of 10 and 4 ASCII bytes
(4 and 2 estimated tokens, total 6) against budget 3. -/
theorem budget_allocation_exact_witness :
    0 < 3 ∧
    3 < ([⟨"a", "aaaaaaaaaa".data⟩, ⟨"b", "bbbb".data⟩].map
      (fun f => estimate_tokens (FileContent.content f))).sum ∧
    (budgetAllocations ([⟨"a", "aaaaaaaaaa".data⟩, ⟨"b", "bbbb".data⟩].map
      (fun f => estimate_tokens (FileContent.content f))) 3).sum = 3 :=
  ⟨by decide, by decide,
    budget_allocation_exact [⟨"a", "aaaaaaaaaa".data⟩, ⟨"b", "bbbb".data⟩] 3
      (by decide) (by decide)⟩

/-! ## MCP registry and tool execution (src/mcp/types.rs, src/mcp/client.rs,
src/chat.rs 1217-1397)

I/O-facing collaborators (the filesystem helpers, the confirmation prompts,
each server's `tools/call` endpoint, the model runtime) are oracles supplied
in `SessionEnv`; the control flow around them is translated from the source.
`handle_write_file_tool_call` additionally returns the list of filesystem
write attempts it performs, so that "no write happened" is expressible. -/

/-- `Content` (src/mcp/types.rs 295-308), reduced to the data the conversion
to `ToolResult` reads. -/
inductive Content where
  | text (t : String) : Content
  | image (data mimeType : String) : Content
  | resource (uri : String) : Content

/-- `CallToolResult` (src/mcp/types.rs 285-290). -/
structure CallToolResult where
  content : List Content
  isError : Option Bool

/-- `ToolResult` (src/mcp/types.rs 336-340). -/
structure ToolResult where
  name : String
  success : Bool
  output : String

/-- `impl From<CallToolResult> for ToolResult` (src/mcp/types.rs 342-368). -/
def ToolResult.fromCallToolResult (result : CallToolResult) : ToolResult :=
  let output := result.content.foldl
    (fun acc c =>
      match c with
      | .text t => acc ++ t ++ "\n"
      | .image _ mimeType => acc ++ "[Image: " ++ mimeType ++ "]\n"
      | .resource uri => acc ++ "[Resource: " ++ uri ++ "]\n")
    ""
  ⟨"", !result.isError.getD false, output⟩

/-- `ServerConnection` (src/mcp/client.rs 12-18): the cached catalog of tool
names plus the server's `tools/call` behaviour as an oracle. -/
structure ServerConnection where
  name : String
  tools : List String
  respond : String → Json → Except String CallToolResult

/-- `McpClient` (src/mcp/client.rs 174-176); `HashMap` iteration order is
whatever order the list has. -/
structure McpClient where
  servers : List ServerConnection

/-- `McpClient::find_server_for_tool` (src/mcp/client.rs 223-230). -/
def find_server_for_tool (c : McpClient) (toolName : String) : Option ServerConnection :=
  c.servers.find? (fun conn => conn.tools.contains toolName)

/-- `McpClient::call_tool` (src/mcp/client.rs 236-262).  An `anyhow` error is
displayed by its outermost context message, which is what
`process_tool_calls` later embeds in the failure `ToolResult`. -/
def McpClient.call_tool (c : McpClient) (name : String) (args : Json) :
    Except String ToolResult :=
  match find_server_for_tool c name with
  | none => .error ("Tool '" ++ name ++ "' not found on any connected server")
  | some conn =>
    match conn.respond name args with
    | .error _ => .error ("Failed to execute tool '" ++ name ++ "'")
    | .ok result => .ok { ToolResult.fromCallToolResult result with name := name }

/-- The `ChatSession` state and external collaborators that tool-call
processing reads (src/chat.rs 31-41; the filesystem and prompt collaborators
are the out-of-scope helpers listed in the spec). -/
structure SessionEnv where
  toolOnly : Bool
  confirmWrites : Bool
  mcpClient : Option McpClient
  fileExists : String → Bool
  readFileRes : String → Except String (String × String)
  writeFileRes : String → String → Except String Unit
  confirmWriteAns : String → Bool → Bool
  confirmOverwriteAns : String → Bool

/-- `ChatSession::tool_result_json` (src/chat.rs 1390-1397). -/
def tool_result_json (name : String) (success : Bool) (payload : Json) : ToolResult :=
  ⟨name, success, ⟨prettyJson 0 payload⟩⟩

/-- `handle_read_file_tool_call` (src/chat.rs 1295-1322); field lists are
written in the key order of the `serde_json::Map` they model. -/
def handle_read_file_tool_call (env : SessionEnv) (call : ToolCall) : ToolResult :=
  match (Json.get call.arguments "path").bind Json.asStr with
  | none =>
    tool_result_json "read_file" false
      (Json.obj [("error", Json.str "Missing required argument: path")])
  | some path =>
    match env.readFileRes path with
    | .ok pc =>
      tool_result_json "read_file" true
        (Json.obj [("content", Json.str pc.2), ("path", Json.str pc.1)])
    | .error e =>
      tool_result_json "read_file" false
        (Json.obj [("error", Json.str e), ("path", Json.str path)])

/-- `handle_write_file_tool_call` (src/chat.rs 1324-1388), also returning the
filesystem write attempts it makes (empty on every refusal path). -/
def handle_write_file_tool_call (env : SessionEnv) (call : ToolCall) :
    ToolResult × List (String × String) :=
  if env.toolOnly then
    (tool_result_json "write_file" false
      (Json.obj [("error", Json.str "Local writes are disabled in tool-only mode")]), [])
  else
    match (Json.get call.arguments "path").bind Json.asStr with
    | none =>
      (tool_result_json "write_file" false
        (Json.obj [("error", Json.str "Missing required argument: path")]), [])
    | some path =>
      match (Json.get call.arguments "content").bind Json.asStr with
      | none =>
        (tool_result_json "write_file" false
          (Json.obj [("error", Json.str "Missing required argument: content")]), [])
      | some content =>
        let exists_ := env.fileExists path
        if env.confirmWrites ∧ ¬ env.confirmWriteAns path exists_ then
          (tool_result_json "write_file" false
            (Json.obj [("path", Json.str path), ("skipped", Json.bool true)]), [])
        else if ¬ env.confirmWrites ∧ exists_ ∧ ¬ env.confirmOverwriteAns path then
          (tool_result_json "write_file" false
            (Json.obj [("path", Json.str path), ("skipped", Json.bool true)]), [])
        else
          match env.writeFileRes path content with
          | .ok _ =>
            (tool_result_json "write_file" true
              (Json.obj [("path", Json.str path), ("written", Json.bool true)]),
              [(path, content)])
          | .error e =>
            (tool_result_json "write_file" false
              (Json.obj [("error", Json.str e), ("path", Json.str path)]),
              [(path, content)])

/-- Registry arm of the dispatch `match` in `process_tool_calls`
(src/chat.rs 1253-1288). -/
def dispatchRegistry (env : SessionEnv) (call : ToolCall) : ToolResult :=
  match env.mcpClient with
  | some client =>
    match client.call_tool call.name call.arguments with
    | .ok result => { result with name := call.name }
    | .error e =>
      tool_result_json call.name false (Json.obj [("error", Json.str e)])
  | none =>
    tool_result_json call.name false
      (Json.obj [("error", Json.str "No MCP client available")])

/-- `ToolCallAllowance` (src/chat.rs 43-47). -/
inductive ToolCallAllowance where
  | all : ToolCallAllowance
  | writeOnly : ToolCallAllowance
  deriving DecidableEq

/-- The `for call in tool_calls` loop of `process_tool_calls`
(src/chat.rs 1234-1290).  Returns (results, blocked_repeat, seen after,
executed names in order, filesystem write attempts). -/
def processCalls (env : SessionEnv) (allowance : ToolCallAllowance) :
    List ToolCall → List String →
    List ToolResult × Bool × List String × List String × List (String × String)
  | [], seen => ([], false, seen, [], [])
  | call :: rest, seen =>
    if allowance = .writeOnly ∧ call.name ≠ "write_file" then
      let out := processCalls env allowance rest seen
      (out.1, true, out.2.2)
    else if call.name ∈ seen then
      let out := processCalls env allowance rest seen
      (out.1, true, out.2.2)
    else
      let seen := call.name :: seen
      let rw :=
        if call.name = "read_file" then (handle_read_file_tool_call env call, [])
        else if call.name = "write_file" then handle_write_file_tool_call env call
        else (dispatchRegistry env call, [])
      let out := processCalls env allowance rest seen
      (rw.1 :: out.1, out.2.1, out.2.2.1, call.name :: out.2.2.2.1, rw.2 ++ out.2.2.2.2)

/-- `process_tool_calls` (src/chat.rs 1217-1293): detect, then run the loop
(the early return for zero detected calls yields the same value the loop
does on an empty list). -/
def process_tool_calls (env : SessionEnv) (output : List Char) (seen : List String)
    (allowance : ToolCallAllowance) :
    List ToolResult × Bool × List String × List String × List (String × String) :=
  let toolCalls := detect output
  if toolCalls.isEmpty then ([], false, seen, [], [])
  else processCalls env allowance toolCalls seen

/-! ## Per-turn tool loop (src/chat.rs 414-533) -/

/-- How one turn of the chat loop ends (src/chat.rs 461-496): a blocked call
(`[Repeated tool call blocked]`), no tool results (final answer), the round
cap (`[Tool call limit reached]`), a prompt-rebuild overflow, or a model
inference error. -/
inductive TurnOutcome where
  | blockedStop : TurnOutcome
  | doneNoResults : TurnOutcome
  | limitReached : TurnOutcome
  | overflowStop : TurnOutcome
  | inferFail : TurnOutcome
  deriving DecidableEq

/-- Observables of one `process_tool_calls` round inside a turn. -/
structure RoundLog where
  executed : List String
  blocked : Bool
  resultCount : Nat

/-- Observables of one whole turn: one `RoundLog` per loop iteration, plus
how the loop ended. -/
structure TurnLog where
  rounds : List RoundLog
  outcome : TurnOutcome

/-- The `loop` of `run_chat_loop` (src/chat.rs 423-525), with a structural
fuel so that the definition computes.  `respond k` is the model’s `k`-th
response of the turn (`none` = inference error) and `overflowAt k` tells
whether the `k`-th follow-up prompt overflows the context limit; both are
external oracles.  The allowance is `All` in round 0 and `WriteOnly`
afterwards; a blocked call ends the turn, then empty results, then the cap
`tool_rounds >= 3`.  The fuel-out branch is unreachable whenever
`3 - toolRounds < fuel` — `run_tool_loopF_fuel_agnostic` proves the value is
then independent of the fuel, which is exactly the termination of the source
loop within the round cap. -/
def run_tool_loopF (env : SessionEnv) (respond : Nat → Option (List Char))
    (overflowAt : Nat → Bool) :
    Nat → List Char → Nat → List String → TurnLog
  | 0, _, _, _ => ⟨[], .inferFail⟩
  | fuel + 1, response, toolRounds, seen =>
    let allowance := if toolRounds = 0 then ToolCallAllowance.all else ToolCallAllowance.writeOnly
    let out := process_tool_calls env response seen allowance
    let rl : RoundLog := ⟨out.2.2.2.1, out.2.1, out.1.length⟩
    if out.2.1 then ⟨[rl], .blockedStop⟩
    else if out.1.isEmpty then ⟨[rl], .doneNoResults⟩
    else if 3 ≤ toolRounds + 1 then ⟨[rl], .limitReached⟩
    else if overflowAt (toolRounds + 1) then ⟨[rl], .overflowStop⟩
    else
      match respond (toolRounds + 1) with
      | none => ⟨[rl], .inferFail⟩
      | some nextResponse =>
        let rest := run_tool_loopF env respond overflowAt fuel nextResponse (toolRounds + 1) out.2.2.1
        ⟨rl :: rest.rounds, rest.outcome⟩

lemma run_tool_loopF_fuel_agnostic (env : SessionEnv) (respond : Nat → Option (List Char))
    (overflowAt : Nat → Bool) :
    ∀ (f₁ : Nat) (response : List Char) (toolRounds : Nat) (seen : List String) (f₂ : Nat),
      3 - toolRounds < f₁ → 3 - toolRounds < f₂ →
      run_tool_loopF env respond overflowAt f₁ response toolRounds seen =
        run_tool_loopF env respond overflowAt f₂ response toolRounds seen := by
  intro f₁
  induction f₁ with
  | zero => intro _ _ _ _ h₁ _; omega
  | succ g₁ ih =>
    intro response toolRounds seen f₂ h₁ h₂
    cases f₂ with
    | zero => omega
    | succ g₂ =>
      simp only [run_tool_loopF]
      set out := process_tool_calls env response seen
        (if toolRounds = 0 then ToolCallAllowance.all else ToolCallAllowance.writeOnly) with hout
      by_cases hb : out.2.1 = true
      · simp [hb]
      · simp only [Bool.not_eq_true] at hb
        by_cases he : out.1.isEmpty
        · simp [hb, he]
        · by_cases hcap : 3 ≤ toolRounds + 1
          · simp [hb, he, hcap]
          · by_cases hov : overflowAt (toolRounds + 1)
            · simp [hb, he, hcap, hov]
            · cases hresp : respond (toolRounds + 1) with
              | none => simp [hb, he, hcap, hov, hresp]
              | some nextResponse =>
                have hrec := ih nextResponse (toolRounds + 1) out.2.2.1 g₂
                  (by omega) (by omega)
                simp [hb, he, hcap, hov, hresp, hrec]

/-- Canonical fuel: one more than the bound `3 - toolRounds` that the round
cap enforces. -/
def run_tool_loop (env : SessionEnv) (respond : Nat → Option (List Char))
    (overflowAt : Nat → Bool) (response : List Char) (toolRounds : Nat)
    (seen : List String) : TurnLog :=
  run_tool_loopF env respond overflowAt (3 - toolRounds + 1) response toolRounds seen

/-- One turn (src/chat.rs 414-533): run the model once, then the tool loop
with a fresh round counter and a freshly created empty seen-name set. -/
def run_turn (env : SessionEnv) (respond : Nat → Option (List Char))
    (overflowAt : Nat → Bool) : TurnLog :=
  match respond 0 with
  | none => ⟨[], .inferFail⟩
  | some r0 => run_tool_loop env respond overflowAt r0 0 []

/-! ## Orchestration lemmas -/

lemma processCalls_executed_spec (env : SessionEnv) (allowance : ToolCallAllowance) :
    ∀ (calls : List ToolCall) (seen : List String),
      (processCalls env allowance calls seen).2.2.2.1.Nodup ∧
      (∀ n ∈ (processCalls env allowance calls seen).2.2.2.1, n ∉ seen) ∧
      (∀ n, n ∈ (processCalls env allowance calls seen).2.2.1 ↔
        (n ∈ seen ∨ n ∈ (processCalls env allowance calls seen).2.2.2.1)) := by
  intro calls
  induction calls with
  | nil => intro seen; simp [processCalls]
  | cons call rest ih =>
    intro seen
    by_cases h1 : allowance = ToolCallAllowance.writeOnly ∧ call.name ≠ "write_file"
    · simpa [processCalls, h1] using ih seen
    · by_cases h2 : call.name ∈ seen
      · simpa [processCalls, h1, h2] using ih seen
      · obtain ⟨ihn, ihs, ihm⟩ := ih (call.name :: seen)
        refine ⟨?_, ?_, ?_⟩
        · simp only [processCalls, h1, h2, if_false, if_neg, List.nodup_cons]
          refine ⟨fun hmem => ?_, ihn⟩
          exact (ihs call.name hmem) (by simp)
        · intro n hn
          simp only [processCalls, h1, h2, if_false, if_neg, List.mem_cons] at hn
          rcases hn with h | h
          · subst h; exact h2
          · have := ihs n h
            intro hcon
            exact this (by simp [hcon])
        · intro n
          simp only [processCalls, h1, h2, if_false, if_neg, List.mem_cons]
          rw [ihm n]
          simp [List.mem_cons]
          tauto

lemma processCalls_results_length (env : SessionEnv) (allowance : ToolCallAllowance) :
    ∀ (calls : List ToolCall) (seen : List String),
      (processCalls env allowance calls seen).1.length =
        (processCalls env allowance calls seen).2.2.2.1.length := by
  intro calls
  induction calls with
  | nil => intro seen; simp [processCalls]
  | cons call rest ih =>
    intro seen
    by_cases h1 : allowance = ToolCallAllowance.writeOnly ∧ call.name ≠ "write_file"
    · simpa [processCalls, h1] using ih seen
    · by_cases h2 : call.name ∈ seen
      · simpa [processCalls, h1, h2] using ih seen
      · simpa [processCalls, h1, h2] using ih (call.name :: seen)

lemma processCalls_writeOnly_executed (env : SessionEnv) :
    ∀ (calls : List ToolCall) (seen : List String),
      ∀ n ∈ (processCalls env .writeOnly calls seen).2.2.2.1, n = "write_file" := by
  intro calls
  induction calls with
  | nil => intro seen n hn; simp [processCalls] at hn
  | cons call rest ih =>
    intro seen n hn
    by_cases hw : call.name = "write_file"
    · by_cases h2 : call.name ∈ seen
      · have h2' : "write_file" ∈ seen := by rwa [hw] at h2
        simp [processCalls, hw, h2'] at hn
        exact ih seen n hn
      · have h2' : "write_file" ∉ seen := by rwa [hw] at h2
        simp [processCalls, hw, h2'] at hn
        rcases hn with h | h
        · exact h
        · exact ih (call.name :: seen) n (by simpa [hw] using h)
    · simp [processCalls, hw] at hn
      exact ih seen n hn

lemma processCalls_writeOnly_seen_blocked (env : SessionEnv) :
    ∀ (calls : List ToolCall) (seen : List String), "write_file" ∈ seen →
      (processCalls env .writeOnly calls seen).1 = [] ∨
      (processCalls env .writeOnly calls seen).2.1 = true := by
  intro calls seen hwf
  cases calls with
  | nil => left; simp [processCalls]
  | cons call rest =>
    by_cases hw : call.name = "write_file"
    · right; simp [processCalls, hw, hwf]
    · right; simp [processCalls, hw]

lemma run_tool_loopF_join_nodup (env : SessionEnv) (respond : Nat → Option (List Char))
    (overflowAt : Nat → Bool) :
    ∀ (fuel : Nat) (response : List Char) (toolRounds : Nat) (seen : List String),
      (((run_tool_loopF env respond overflowAt fuel response toolRounds seen).rounds.map
        RoundLog.executed).flatten).Nodup ∧
      (∀ x ∈ ((run_tool_loopF env respond overflowAt fuel response toolRounds seen).rounds.map
        RoundLog.executed).flatten, x ∉ seen) := by
  intro fuel
  induction fuel with
  | zero => intro response toolRounds seen; simp [run_tool_loopF]
  | succ g ih =>
    intro response toolRounds seen
    set allowance := if toolRounds = 0 then ToolCallAllowance.all else ToolCallAllowance.writeOnly
    have hspec := processCalls_executed_spec env allowance (detect response) seen
    have hspec' :
        (process_tool_calls env response seen allowance).2.2.2.1.Nodup ∧
        (∀ n ∈ (process_tool_calls env response seen allowance).2.2.2.1, n ∉ seen) ∧
        (∀ n, n ∈ (process_tool_calls env response seen allowance).2.2.1 ↔
          (n ∈ seen ∨ n ∈ (process_tool_calls env response seen allowance).2.2.2.1)) := by
      unfold process_tool_calls
      by_cases hempty : (detect response).isEmpty
      · simp [hempty]
      · simpa [hempty] using hspec
    obtain ⟨hnodup, hdisj, hseen⟩ := hspec'
    set out := process_tool_calls env response seen allowance with hout
    by_cases hb : out.2.1 = true
    · simpa [run_tool_loopF, hb, ← hout] using ⟨hnodup, hdisj⟩
    · simp only [Bool.not_eq_true] at hb
      by_cases he : out.1.isEmpty
      · simpa [run_tool_loopF, hb, he, ← hout] using ⟨hnodup, hdisj⟩
      · by_cases hcap : 3 ≤ toolRounds + 1
        · simpa [run_tool_loopF, hb, he, hcap, ← hout] using ⟨hnodup, hdisj⟩
        · by_cases hov : overflowAt (toolRounds + 1)
          · simpa [run_tool_loopF, hb, he, hcap, hov, ← hout] using ⟨hnodup, hdisj⟩
          · cases hresp : respond (toolRounds + 1) with
            | none =>
              simpa [run_tool_loopF, hb, he, hcap, hov, hresp, ← hout] using ⟨hnodup, hdisj⟩
            | some nextResponse =>
              obtain ⟨ihn, ihs⟩ := ih nextResponse (toolRounds + 1) out.2.2.1
              have hjoin :
                  (((run_tool_loopF env respond overflowAt (g + 1) response toolRounds
                    seen).rounds.map RoundLog.executed).flatten) =
                  out.2.2.2.1 ++
                    (((run_tool_loopF env respond overflowAt g nextResponse (toolRounds + 1)
                      out.2.2.1).rounds.map RoundLog.executed).flatten) := by
                simp [run_tool_loopF, hb, he, hcap, hov, hresp, ← hout]
              rw [hjoin]
              constructor
              · rw [List.nodup_append]
                refine ⟨hnodup, ihn, ?_⟩
                intro a ha hcon
                have hnotseen' := ihs a hcon
                exact hnotseen' ((hseen a).mpr (Or.inr ha))
              · intro x hx
                rcases List.mem_append.mp hx with h | h
                · exact hdisj x h
                · intro hcon
                  exact (ihs x h) ((hseen x).mpr (Or.inl hcon))

/-- Claim C3: within one turn, no tool name is dispatched twice — the
concatenation of the executed-name lists over all rounds of a turn has no
duplicate, for every environment and every model behaviour (including a
model that emits the same call twice in one response or across rounds), and
for both local built-ins and Registry dispatch (all executed names pass
through the same seen-set guard).  The seen set is created afresh inside
`run_turn`, so every turn starts with an empty set. -/
theorem tool_name_executes_once_per_turn (env : SessionEnv)
    (respond : Nat → Option (List Char)) (overflowAt : Nat → Bool) :
    (((run_turn env respond overflowAt).rounds.map RoundLog.executed).flatten).Nodup := by
  unfold run_turn
  cases respond 0 with
  | none => simp
  | some r0 =>
    exact (run_tool_loopF_join_nodup env respond overflowAt (3 - 0 + 1) r0 0 []).1

lemma run_tool_loopF_blocked_last (env : SessionEnv) (respond : Nat → Option (List Char))
    (overflowAt : Nat → Bool) :
    ∀ (fuel : Nat) (response : List Char) (toolRounds : Nat) (seen : List String),
      (∀ rl ∈ (run_tool_loopF env respond overflowAt fuel response toolRounds
        seen).rounds.dropLast, rl.blocked = false) ∧
      ((∃ rl ∈ (run_tool_loopF env respond overflowAt fuel response toolRounds seen).rounds,
          rl.blocked = true) →
        (run_tool_loopF env respond overflowAt fuel response toolRounds seen).outcome =
          TurnOutcome.blockedStop) := by
  intro fuel
  induction fuel with
  | zero => intro response toolRounds seen; simp [run_tool_loopF]
  | succ g ih =>
    intro response toolRounds seen
    set allowance := if toolRounds = 0 then ToolCallAllowance.all else ToolCallAllowance.writeOnly
    set out := process_tool_calls env response seen allowance with hout
    by_cases hb : out.2.1 = true
    · constructor
      · simp [run_tool_loopF, hb, ← hout]
      · intro _; simp [run_tool_loopF, hb, ← hout]
    · simp only [Bool.not_eq_true] at hb
      by_cases he : out.1.isEmpty
      · constructor
        · simp [run_tool_loopF, hb, he, ← hout]
        · intro hex
          simp [run_tool_loopF, hb, he, ← hout] at hex
      · by_cases hcap : 3 ≤ toolRounds + 1
        · constructor
          · simp [run_tool_loopF, hb, he, hcap, ← hout]
          · intro hex
            simp [run_tool_loopF, hb, he, hcap, ← hout] at hex
        · by_cases hov : overflowAt (toolRounds + 1)
          · constructor
            · simp [run_tool_loopF, hb, he, hcap, hov, ← hout]
            · intro hex
              simp [run_tool_loopF, hb, he, hcap, hov, ← hout] at hex
          · cases hresp : respond (toolRounds + 1) with
            | none =>
              constructor
              · simp [run_tool_loopF, hb, he, hcap, hov, hresp, ← hout]
              · intro hex
                simp [run_tool_loopF, hb, he, hcap, hov, hresp, ← hout] at hex
            | some nextResponse =>
              obtain ⟨ihdrop, ihblocked⟩ := ih nextResponse (toolRounds + 1) out.2.2.1
              set rest := run_tool_loopF env respond overflowAt g nextResponse
                (toolRounds + 1) out.2.2.1 with hrest
              have hrounds :
                  (run_tool_loopF env respond overflowAt (g + 1) response toolRounds
                    seen).rounds = ⟨out.2.2.2.1, out.2.1, out.1.length⟩ :: rest.rounds := by
                simp [run_tool_loopF, hb, he, hcap, hov, hresp, ← hout, ← hrest]
              have houtc :
                  (run_tool_loopF env respond overflowAt (g + 1) response toolRounds
                    seen).outcome = rest.outcome := by
                simp [run_tool_loopF, hb, he, hcap, hov, hresp, ← hout, ← hrest]
              constructor
              · intro rl hrl
                rw [hrounds] at hrl
                cases hrr : rest.rounds with
                | nil => rw [hrr] at hrl; simp at hrl
                | cons r rs =>
                  rw [hrr, List.dropLast_cons₂, List.mem_cons] at hrl
                  rcases hrl with h | h
                  · rw [h]; exact hb
                  · exact ihdrop rl (by rw [hrr]; exact h)
              · intro hex
                rw [houtc]
                obtain ⟨rl, hrl, hrlb⟩ := hex
                rw [hrounds, List.mem_cons] at hrl
                rcases hrl with h | h
                · rw [h] at hrlb; simp at hrlb; exact absurd hrlb (by simp [hb])
                · exact ihblocked ⟨rl, h, hrlb⟩

/-- Claim C5: a blocked tool call (repeat of a seen name, or any
non-`write_file` call under the `WriteOnly` allowance) ends the turn at that
round — every non-final round of a turn has `blocked = false`, and a turn
containing a blocked round ends with the blocked-stop outcome, so no further
round starts.  Moreover, within a `WriteOnly` round, a `write_file` call
whose name is not yet seen executes (one result, not blocked), while a
`search_docs` call is blocked and produces no result. -/
theorem blocked_call_terminates_turn (env : SessionEnv)
    (respond : Nat → Option (List Char)) (overflowAt : Nat → Bool) :
    (∀ rl ∈ (run_turn env respond overflowAt).rounds.dropLast, rl.blocked = false) ∧
    ((∃ rl ∈ (run_turn env respond overflowAt).rounds, rl.blocked = true) →
      (run_turn env respond overflowAt).outcome = TurnOutcome.blockedStop) ∧
    (∀ (env' : SessionEnv) (seen : List String) (args : Json), "write_file" ∉ seen →
      (processCalls env' .writeOnly [⟨"write_file", args⟩] seen).2.1 = false ∧
      (processCalls env' .writeOnly [⟨"write_file", args⟩] seen).1 =
        [(handle_write_file_tool_call env' ⟨"write_file", args⟩).1] ∧
      (processCalls env' .writeOnly [⟨"write_file", args⟩] seen).2.2.2.1 = ["write_file"]) ∧
    (∀ (env' : SessionEnv) (seen : List String) (args : Json),
      (processCalls env' .writeOnly [⟨"search_docs", args⟩] seen).2.1 = true ∧
      (processCalls env' .writeOnly [⟨"search_docs", args⟩] seen).1 = []) := by
  refine ⟨?_, ?_, ?_, ?_⟩
  · unfold run_turn
    cases respond 0 with
    | none => simp
    | some r0 => exact (run_tool_loopF_blocked_last env respond overflowAt (3 - 0 + 1) r0 0 []).1
  · unfold run_turn
    cases hresp : respond 0 with
    | none => intro hex; simp at hex
    | some r0 => exact (run_tool_loopF_blocked_last env respond overflowAt (3 - 0 + 1) r0 0 []).2
  · intro env' seen args hnot
    refine ⟨?_, ?_, ?_⟩ <;> simp [processCalls, hnot]
  · intro env' seen args
    constructor <;> simp [processCalls]

lemma process_tool_calls_cases (env : SessionEnv) (output : List Char) (seen : List String)
    (allowance : ToolCallAllowance) :
    process_tool_calls env output seen allowance = ([], false, seen, [], []) ∨
    process_tool_calls env output seen allowance =
      processCalls env allowance (detect output) seen := by
  unfold process_tool_calls
  by_cases h : (detect output).isEmpty <;> simp [h]

lemma run_tool_loopF_no_limit (env : SessionEnv) (respond : Nat → Option (List Char))
    (overflowAt : Nat → Bool) :
    ∀ (fuel : Nat) (response : List Char) (toolRounds : Nat) (seen : List String),
      (2 ≤ toolRounds → "write_file" ∈ seen) →
      (run_tool_loopF env respond overflowAt fuel response toolRounds seen).outcome ≠
        TurnOutcome.limitReached ∧
      (run_tool_loopF env respond overflowAt fuel response toolRounds seen).rounds.length ≤
        max 1 (3 - toolRounds) := by
  intro fuel
  induction fuel with
  | zero =>
    intro response toolRounds seen _
    constructor
    · simp [run_tool_loopF]
    · simp only [run_tool_loopF, List.length_nil]
      omega
  | succ g ih =>
    intro response toolRounds seen hinv
    set allowance := if toolRounds = 0 then ToolCallAllowance.all else ToolCallAllowance.writeOnly
      with hallow
    set out := process_tool_calls env response seen allowance with hout
    by_cases hb : out.2.1 = true
    · constructor
      · simp [run_tool_loopF, hb, ← hout]
      · simp [run_tool_loopF, hb, ← hout]
    · simp only [Bool.not_eq_true] at hb
      by_cases he : out.1.isEmpty
      · constructor
        · simp [run_tool_loopF, hb, he, ← hout]
        · simp [run_tool_loopF, hb, he, ← hout]
      · by_cases hcap : 3 ≤ toolRounds + 1
        · exfalso
          have htr2 : 2 ≤ toolRounds := by omega
          have hwf : "write_file" ∈ seen := hinv htr2
          have hwo : allowance = ToolCallAllowance.writeOnly := by
            rw [hallow]
            simp [show toolRounds ≠ 0 by omega]
          rcases process_tool_calls_cases env response seen allowance with hc | hc
          · rw [← hout] at hc
            rw [hc] at he
            simp at he
          · rw [← hout] at hc
            rcases processCalls_writeOnly_seen_blocked env (detect response) seen hwf with
              h | h
            · rw [hwo] at hc
              rw [hc] at he
              rw [h] at he
              simp at he
            · rw [hwo] at hc
              rw [hc] at hb
              rw [h] at hb
              simp at hb
        · by_cases hov : overflowAt (toolRounds + 1)
          · constructor
            · simp [run_tool_loopF, hb, he, hcap, hov, ← hout]
            · simp [run_tool_loopF, hb, he, hcap, hov, ← hout]
          · cases hresp : respond (toolRounds + 1) with
            | none =>
              constructor
              · simp [run_tool_loopF, hb, he, hcap, hov, hresp, ← hout]
              · simp [run_tool_loopF, hb, he, hcap, hov, hresp, ← hout]
            | some nextResponse =>
              have hinv' : 2 ≤ toolRounds + 1 → "write_file" ∈ out.2.2.1 := by
                intro h2
                have htr1 : toolRounds ≠ 0 := by
                  intro h0; rw [h0] at h2; omega
                have hwo : allowance = ToolCallAllowance.writeOnly := by
                  rw [hallow]; simp [htr1]
                rcases process_tool_calls_cases env response seen allowance with hc | hc
                · rw [← hout] at hc
                  rw [hc] at he; simp at he
                · rw [← hout] at hc
                  rw [hwo] at hc
                  have hlen := processCalls_results_length env ToolCallAllowance.writeOnly
                    (detect response) seen
                  have hexne : (processCalls env ToolCallAllowance.writeOnly
                      (detect response) seen).2.2.2.1 ≠ [] := by
                    intro hnil
                    rw [hnil] at hlen
                    simp at hlen
                    rw [hc] at he
                    rw [List.isEmpty_iff] at he
                    exact he hlen
                  obtain ⟨x, hx⟩ := List.exists_mem_of_ne_nil _ hexne
                  have hxwf := processCalls_writeOnly_executed env (detect response) seen x hx
                  have hspec := processCalls_executed_spec env ToolCallAllowance.writeOnly
                    (detect response) seen
                  have hxseen := (hspec.2.2 x).mpr (Or.inr hx)
                  rw [hc]
                  rw [hxwf] at hxseen
                  exact hxseen
              obtain ⟨ihout, ihlen⟩ := ih nextResponse (toolRounds + 1) out.2.2.1 hinv'
              constructor
              · simpa [run_tool_loopF, hb, he, hcap, hov, hresp, ← hout] using ihout
              · have : (run_tool_loopF env respond overflowAt (g + 1) response toolRounds
                    seen).rounds.length =
                    1 + (run_tool_loopF env respond overflowAt g nextResponse (toolRounds + 1)
                      out.2.2.1).rounds.length := by
                  simp [run_tool_loopF, hb, he, hcap, hov, hresp, ← hout]
                  omega
                rw [this]
                omega

/-- Claim C4 (counterexample).  A model that emits the same tool call in
every response (here a registry call `b`, with no MCP client configured, so
each execution yields a failure result — still a result) is stopped by the
blocked-call guard in round 1, after 2 processing rounds, with the
`[Repeated tool call blocked]` outcome — not by the round-3
`[Tool call limit reached]` notice that the claim predicts. -/
theorem round_cap_notice_counterexample :
    (detect jsonBlockB).length = 1 ∧
    (run_turn ⟨false, false, none, fun _ => false, fun _ => .error "missing",
        fun _ _ => .ok (), fun _ _ => true, fun _ => true⟩
      (fun _ => some jsonBlockB) (fun _ => false)).outcome = TurnOutcome.blockedStop ∧
    (run_turn ⟨false, false, none, fun _ => false, fun _ => .error "missing",
        fun _ _ => .ok (), fun _ _ => true, fun _ => true⟩
      (fun _ => some jsonBlockB) (fun _ => false)).outcome ≠ TurnOutcome.limitReached ∧
    (run_turn ⟨false, false, none, fun _ => false, fun _ => .error "missing",
        fun _ _ => .ok (), fun _ _ => true, fun _ => true⟩
      (fun _ => some jsonBlockB) (fun _ => false)).rounds.length = 2 :=
  ⟨rfl, rfl, by decide, rfl⟩

/-- Claim C4 (amended).  The per-turn loop always terminates, and within at
most 3 processing rounds for every environment and model behaviour; but the
round counter never reaches 3: round 2 runs under the `WriteOnly` allowance
after a round-1 `write_file` execution has put `write_file` into the seen
set, so any третья executed round is impossible and the
`[Tool call limit reached]` notice is unreachable — a model that always
re-emits tool calls is stopped by the blocked-call guard instead. -/
theorem turn_terminates_no_limit_notice (env : SessionEnv)
    (respond : Nat → Option (List Char)) (overflowAt : Nat → Bool) :
    (run_turn env respond overflowAt).rounds.length ≤ 3 ∧
    (run_turn env respond overflowAt).outcome ≠ TurnOutcome.limitReached := by
  cases hresp : respond 0 with
  | none => simp [run_turn, hresp]
  | some r0 =>
    have h := run_tool_loopF_no_limit env respond overflowAt (3 - 0 + 1) r0 0 []
      (by intro h2; omega)
    have h2 := h.2
    simp only [Nat.sub_zero, Nat.max_def] at h2
    simp only [run_turn, hresp, run_tool_loop]
    exact ⟨by omega, h.1⟩

lemma escapeChars_eq_self (cs : List Char) (h : ∀ c ∈ cs, escChar c = [c]) :
    escapeChars cs = cs := by
  induction cs with
  | nil => rfl
  | cons c rest ih =>
    have hc := h c (by simp)
    have hrest := ih (fun x hx => h x (by simp [hx]))
    simp [escapeChars] at hrest ⊢
    simp [hc, hrest]

lemma error_text_infix (name : String) (success : Bool) (msg : String)
    (h : ∀ c ∈ msg.data, escChar c = [c]) :
    msg.data <:+:
      (tool_result_json name success (Json.obj [("error", Json.str msg)])).output.data := by
  refine ⟨"\x7b\n  \"error\": \"".data, "\"\n\x7d".data, ?_⟩
  have hesc := escapeChars_eq_self msg.data h
  show _ = (tool_result_json name success (Json.obj [("error", Json.str msg)])).output.data
  simp [tool_result_json, prettyJson, prettyFields, indentChars, hesc]
  rfl

/-- Claim C9: every failure mode of Registry dispatch for a non-built-in
tool name — no MCP client configured, no connected server providing the
tool, or a transport/JSON-RPC error from the owning server — produces an
ordinary `ToolResult` with `success = false` whose output embeds the error
text; and `process_tool_calls` appends the dispatch result of an executed
non-built-in call to the round's results in call order exactly like a
successful one (the model functions are total: nothing propagates). -/
theorem registry_failure_uniform_result :
    (∀ (env : SessionEnv) (call : ToolCall), env.mcpClient = none →
      (dispatchRegistry env call).success = false ∧
      ("No MCP client available").data <:+: (dispatchRegistry env call).output.data) ∧
    (∀ (env : SessionEnv) (client : McpClient) (call : ToolCall),
      env.mcpClient = some client → find_server_for_tool client call.name = none →
      (∀ c ∈ call.name.data, escChar c = [c]) →
      (dispatchRegistry env call).success = false ∧
      ("Tool '" ++ call.name ++ "' not found on any connected server").data <:+:
        (dispatchRegistry env call).output.data) ∧
    (∀ (env : SessionEnv) (client : McpClient) (conn : ServerConnection) (e : String)
        (call : ToolCall),
      env.mcpClient = some client → find_server_for_tool client call.name = some conn →
      conn.respond call.name call.arguments = .error e →
      (∀ c ∈ call.name.data, escChar c = [c]) →
      (dispatchRegistry env call).success = false ∧
      ("Failed to execute tool '" ++ call.name ++ "'").data <:+:
        (dispatchRegistry env call).output.data) ∧
    (∀ (env : SessionEnv) (allowance : ToolCallAllowance) (call : ToolCall)
        (calls : List ToolCall) (seen : List String),
      ¬(allowance = ToolCallAllowance.writeOnly ∧ call.name ≠ "write_file") →
      call.name ∉ seen → call.name ≠ "read_file" → call.name ≠ "write_file" →
      (processCalls env allowance (call :: calls) seen).1 =
        dispatchRegistry env call ::
          (processCalls env allowance calls (call.name :: seen)).1) := by
  refine ⟨?_, ?_, ?_, ?_⟩
  · intro env call henv
    constructor
    · simp [dispatchRegistry, henv, tool_result_json]
    · have h := error_text_infix call.name false "No MCP client available" (by decide)
      simpa [dispatchRegistry, henv] using h
  · intro env client call henv hfind hname
    have hmsg : ∀ c ∈ ("Tool '" ++ call.name ++ "' not found on any connected server").data,
        escChar c = [c] := by
      have hA : ∀ c ∈ "Tool '".data, escChar c = [c] := by decide
      have hB : ∀ c ∈ "' not found on any connected server".data, escChar c = [c] := by decide
      intro c hc
      rw [String.data_append, String.data_append] at hc
      rcases List.mem_append.mp hc with hc | hc
      · rcases List.mem_append.mp hc with hc | hc
        · exact hA c hc
        · exact hname c hc
      · exact hB c hc
    constructor
    · simp [dispatchRegistry, henv, McpClient.call_tool, hfind, tool_result_json]
    · have h := error_text_infix call.name false
        ("Tool '" ++ call.name ++ "' not found on any connected server") hmsg
      simpa [dispatchRegistry, henv, McpClient.call_tool, hfind] using h
  · intro env client conn e call henv hfind hresp hname
    have hmsg : ∀ c ∈ ("Failed to execute tool '" ++ call.name ++ "'").data,
        escChar c = [c] := by
      have hA : ∀ c ∈ "Failed to execute tool '".data, escChar c = [c] := by decide
      have hB : ∀ c ∈ "'".data, escChar c = [c] := by decide
      intro c hc
      rw [String.data_append, String.data_append] at hc
      rcases List.mem_append.mp hc with hc | hc
      · rcases List.mem_append.mp hc with hc | hc
        · exact hA c hc
        · exact hname c hc
      · exact hB c hc
    constructor
    · simp [dispatchRegistry, henv, McpClient.call_tool, hfind, hresp, tool_result_json]
    · have h := error_text_infix call.name false
        ("Failed to execute tool '" ++ call.name ++ "'") hmsg
      simpa [dispatchRegistry, henv, McpClient.call_tool, hfind, hresp] using h
  · intro env allowance call calls seen h1 h2 hrf hwf
    have hall : allowance ≠ ToolCallAllowance.writeOnly := fun ha => h1 ⟨ha, hwf⟩
    simp [processCalls, hall, h2, hrf, hwf]

/-- Claim C10: every refusal path of `handle_write_file_tool_call` — the
session in tool-only mode, a missing or non-string `path` or `content`
argument, or a declined confirmation prompt (either the `--confirm-writes`
prompt or the overwrite prompt for an existing file) — returns
`success = false` and performs no filesystem write. -/
theorem write_file_refusals_leave_fs_unchanged :
    (∀ (env : SessionEnv) (call : ToolCall), env.toolOnly = true →
      (handle_write_file_tool_call env call).1.success = false ∧
      (handle_write_file_tool_call env call).2 = []) ∧
    (∀ (env : SessionEnv) (call : ToolCall), env.toolOnly = false →
      (Json.get call.arguments "path").bind Json.asStr = none →
      (handle_write_file_tool_call env call).1.success = false ∧
      (handle_write_file_tool_call env call).2 = []) ∧
    (∀ (env : SessionEnv) (call : ToolCall) (path : String), env.toolOnly = false →
      (Json.get call.arguments "path").bind Json.asStr = some path →
      (Json.get call.arguments "content").bind Json.asStr = none →
      (handle_write_file_tool_call env call).1.success = false ∧
      (handle_write_file_tool_call env call).2 = []) ∧
    (∀ (env : SessionEnv) (call : ToolCall) (path content : String), env.toolOnly = false →
      (Json.get call.arguments "path").bind Json.asStr = some path →
      (Json.get call.arguments "content").bind Json.asStr = some content →
      env.confirmWrites = true → env.confirmWriteAns path (env.fileExists path) = false →
      (handle_write_file_tool_call env call).1.success = false ∧
      (handle_write_file_tool_call env call).2 = []) ∧
    (∀ (env : SessionEnv) (call : ToolCall) (path content : String), env.toolOnly = false →
      (Json.get call.arguments "path").bind Json.asStr = some path →
      (Json.get call.arguments "content").bind Json.asStr = some content →
      env.confirmWrites = false → env.fileExists path = true →
      env.confirmOverwriteAns path = false →
      (handle_write_file_tool_call env call).1.success = false ∧
      (handle_write_file_tool_call env call).2 = []) := by
  refine ⟨?_, ?_, ?_, ?_, ?_⟩
  · intro env call h
    constructor <;> simp [handle_write_file_tool_call, h, tool_result_json]
  · intro env call h hp
    constructor <;> simp [handle_write_file_tool_call, h, hp, tool_result_json]
  · intro env call path h hp hc
    constructor <;> simp [handle_write_file_tool_call, h, hp, hc, tool_result_json]
  · intro env call path content h hp hc hcw hans
    constructor <;>
      simp [handle_write_file_tool_call, h, hp, hc, hcw, hans, tool_result_json]
  · intro env call path content h hp hc hcw hex hans
    constructor <;>
      simp [handle_write_file_tool_call, h, hp, hc, hcw, hex, hans, tool_result_json]

/-- Witness for C5: in a `WriteOnly` round with nothing seen yet, a
`write_file` call is not blocked while a `search_docs` call is. -/
theorem blocked_call_terminates_turn_witness :
    "write_file" ∉ ([] : List String) ∧
    (processCalls ⟨false, false, none, fun _ => false, fun _ => .error "missing",
        fun _ _ => .ok (), fun _ _ => true, fun _ => true⟩ .writeOnly
      [⟨"write_file", Json.obj []⟩] []).2.1 = false ∧
    (processCalls ⟨false, false, none, fun _ => false, fun _ => .error "missing",
        fun _ _ => .ok (), fun _ _ => true, fun _ => true⟩ .writeOnly
      [⟨"search_docs", Json.obj []⟩] []).2.1 = true := by
  refine ⟨by simp, ?_, ?_⟩
  · exact ((blocked_call_terminates_turn
      ⟨false, false, none, fun _ => false, fun _ => .error "missing",
        fun _ _ => .ok (), fun _ _ => true, fun _ => true⟩
      (fun _ => none) (fun _ => false)).2.2.1
      ⟨false, false, none, fun _ => false, fun _ => .error "missing",
        fun _ _ => .ok (), fun _ _ => true, fun _ => true⟩
      [] (Json.obj []) (by simp)).1
  · exact ((blocked_call_terminates_turn
      ⟨false, false, none, fun _ => false, fun _ => .error "missing",
        fun _ _ => .ok (), fun _ _ => true, fun _ => true⟩
      (fun _ => none) (fun _ => false)).2.2.2
      ⟨false, false, none, fun _ => false, fun _ => .error "missing",
        fun _ _ => .ok (), fun _ _ => true, fun _ => true⟩
      [] (Json.obj [])).1

/-- Witness for C9: with no MCP client, dispatching `search_web` yields an
ordinary failure result embedding the error text. -/
theorem registry_failure_uniform_result_witness :
    (dispatchRegistry ⟨false, false, none, fun _ => false, fun _ => .error "missing",
        fun _ _ => .ok (), fun _ _ => true, fun _ => true⟩
      ⟨"search_web", Json.obj []⟩).success = false ∧
    ("No MCP client available").data <:+:
      (dispatchRegistry ⟨false, false, none, fun _ => false, fun _ => .error "missing",
          fun _ _ => .ok (), fun _ _ => true, fun _ => true⟩
        ⟨"search_web", Json.obj []⟩).output.data :=
  registry_failure_uniform_result.1
    ⟨false, false, none, fun _ => false, fun _ => .error "missing",
      fun _ _ => .ok (), fun _ _ => true, fun _ => true⟩
    ⟨"search_web", Json.obj []⟩ rfl

/-- Witness for C10: in tool-only mode a `write_file` call fails and writes
nothing. -/
theorem write_file_refusals_witness :
    (handle_write_file_tool_call ⟨true, false, none, fun _ => false,
        fun _ => .error "missing", fun _ _ => .ok (), fun _ _ => true, fun _ => true⟩
      ⟨"write_file", Json.obj []⟩).1.success = false ∧
    (handle_write_file_tool_call ⟨true, false, none, fun _ => false,
        fun _ => .error "missing", fun _ _ => .ok (), fun _ _ => true, fun _ => true⟩
      ⟨"write_file", Json.obj []⟩).2 = [] :=
  write_file_refusals_leave_fs_unchanged.1
    ⟨true, false, none, fun _ => false, fun _ => .error "missing",
      fun _ _ => .ok (), fun _ _ => true, fun _ => true⟩
    ⟨"write_file", Json.obj []⟩ rfl
